import Mathlib

/-!
Verification development for the function-analysis engine in
`src/Analizador-funciones/src/main.py`.

The engine is a set of pure functions built on the sympy computer-algebra
library.  We shallowly embed the engine over an expression AST with exact
rational constants:

* `Expr` mirrors the symbolic expression trees the engine manipulates
  (numbers, the variable `x`, other free symbols, `+`, `*`, `/`, powers,
  `log`, and applications of unknown functions).
* Machine floats produced by `float(sp.N(...))` are modelled by exact
  rationals; an evaluation that yields a non-real, infinite or otherwise
  non-numeric sympy object (e.g. `zoo`) is modelled by `none`.
* `sp.fraction(sp.simplify(expr))` is modelled by `toFrac`, the rational
  normal form of the expression (a numerator/denominator pair of
  polynomials over ℚ); expression shapes outside the rational fragment,
  on which the surrounding `try`/`except` in the source degrades to an
  empty result, are modelled by `none`.
* `sp.solve(Eq(den, 0), x)` is modelled by `solvePoly`, which returns the
  exact roots of polynomials of degree ≤ 2 as elements `re + irr·√rad`
  of a quadratic extension of ℚ (`Root`); for shapes the model does not
  solve it returns `none`, which the source's `except` branch turns into
  an empty solution list.
-/

namespace AF

attribute [local semireducible] Rat.add Rat.mul Rat.inv Rat.sub

/-- Symbolic expression AST: the fragment of sympy expression trees the
engine manipulates.  `sym` is a free symbol (the engine's variable is
`sym "x"`), `fapp` an application of an unknown function name. -/
inductive Expr : Type
  | num (q : ℚ)
  | sym (s : String)
  | add (a b : Expr)
  | mul (a b : Expr)
  | div (a b : Expr)
  | pow (a b : Expr)
  | log (a : Expr)
  | fapp (f : String) (a : Expr)
  deriving DecidableEq

/-- The variable `x = sp.symbols('x')` fixed at module scope. -/
def X : Expr := Expr.sym "x"

/-- Right-hand side of a constraint produced by the domain analyzer:
either a rational constant (`0` for log constraints) or `-oo`. -/
inductive Bound : Type
  | negInf
  | val (q : ℚ)
  deriving DecidableEq

/-- A symbolic strict inequality `lhs > rhs`, modelling
`sp.StrictGreaterThan(lhs, rhs)`. -/
inductive Constraint : Type
  | strictGT (lhs : Expr) (rhs : Bound)
  deriving DecidableEq

/-- Dense polynomial over ℚ, coefficients in ascending degree order. -/
abbrev Poly := List ℚ

/-- Polynomial addition. -/
def polyAdd : Poly → Poly → Poly
  | [], q => q
  | p, [] => p
  | a :: p, b :: q => (a + b) :: polyAdd p q

/-- Multiplication of a polynomial by a scalar. -/
def polyScale (c : ℚ) (p : Poly) : Poly := p.map (fun a => c * a)

/-- Polynomial multiplication. -/
def polyMul : Poly → Poly → Poly
  | [], _ => []
  | a :: p, q => polyAdd (polyScale a q) (0 :: polyMul p q)

/-- Polynomial power. -/
def polyPow (p : Poly) : ℕ → Poly
  | 0 => [1]
  | n + 1 => polyMul p (polyPow p n)

/-- Strip trailing zero coefficients, yielding the canonical
representative (the zero polynomial becomes `[]`). -/
def normPoly : Poly → Poly
  | [] => []
  | c :: rest =>
    match normPoly rest with
    | [] => if c = 0 then [] else [c]
    | r => c :: r

/-- Evaluation of a polynomial at a real point (Horner form). -/
def Poly.evalR (p : Poly) (t : ℝ) : ℝ :=
  p.foldr (fun c acc => (c : ℝ) + t * acc) 0

/-- A solver output value `re + irr * √rad` with rational components:
the exact form in which sympy's `solve` returns roots of linear and
quadratic equations.  When `rad < 0` and `irr ≠ 0` the value is complex
with imaginary part `irr·√(-rad)`. -/
structure Root : Type where
  re : ℚ
  irr : ℚ
  rad : ℚ
  deriving DecidableEq

/-- The real value of a root (for `rad < 0`, `Real.sqrt` is junk, but
such roots are only consumed when `irr = 0`, where the value is `re`). -/
noncomputable def Root.val (r : Root) : ℝ :=
  (r.re : ℝ) + (r.irr : ℝ) * Real.sqrt (r.rad : ℝ)

/-- `sp.im(s) == 0`: the root is real exactly when the radical part is
real (`rad ≥ 0`) or absent (`irr = 0`). -/
def imZero (r : Root) : Bool := decide (0 ≤ r.rad) || decide (r.irr = 0)

/-- Exact rational square root, when it exists: the candidate is checked
by squaring, so `ratSqrt q = some k` implies `0 ≤ k ∧ k * k = q`. -/
def ratSqrt (q : ℚ) : Option ℚ :=
  let k : ℚ := ((Nat.sqrt q.num.toNat : ℚ)) / ((Nat.sqrt q.den : ℚ))
  if k * k = q then some k else none

/-- `sp.simplify` on a solver root: fold away a zero radical part and
recognise perfect-square radicands, yielding a canonical form. -/
def simplifyRoot (r : Root) : Root :=
  if r.irr = 0 ∨ r.rad = 0 then ⟨r.re, 0, 0⟩
  else
    match ratSqrt r.rad with
    | some k => ⟨r.re + r.irr * k, 0, 0⟩
    | none => r

/-- `float(sp.N(s))` on an exclusion value: fails (`none`) when the
value is complex; an irrational real value, which the source only
compares through a floating approximation, is modelled as
non-convertible. -/
def floatOfRoot (r : Root) : Option ℚ :=
  if r.irr = 0 ∨ r.rad = 0 then some r.re
  else if r.rad < 0 then none
  else
    match ratSqrt r.rad with
    | some k => some (r.re + r.irr * k)
    | none => none

/-- Constant folding of a closed expression to a rational, modelling the
fact that `sympify(..., evaluate=True)` reduces constant sub-terms (such
as exponents `1/2`) to `Rational` atoms.  Expressions containing
symbols, logs or unknown functions are not rational constants. -/
def constOf : Expr → Option ℚ
  | Expr.num q => some q
  | Expr.sym _ => none
  | Expr.add a b => do
    let va ← constOf a
    let vb ← constOf b
    pure (va + vb)
  | Expr.mul a b => do
    let va ← constOf a
    let vb ← constOf b
    pure (va * vb)
  | Expr.div a b => do
    let va ← constOf a
    let vb ← constOf b
    if vb = 0 then none else pure (va / vb)
  | Expr.pow a b => do
    let va ← constOf a
    let vb ← constOf b
    if vb.den = 1 then
      if 0 ≤ vb.num then pure (va ^ vb.num.toNat)
      else if va = 0 then none else pure ((va ^ (-vb.num).toNat)⁻¹)
    else none
  | Expr.log _ => none
  | Expr.fapp _ _ => none

/-- Numeric evaluation `float(sp.N(expr.subs(x, v)))` restricted to the
rational-closed fragment: `none` models every outcome the source
discards or catches (complex values, `zoo` from division by zero,
residual free symbols, non-rational function values, infinities). -/
def evalAt : Expr → ℚ → Option ℚ
  | Expr.num q, _ => some q
  | Expr.sym s, v => if s = "x" then some v else none
  | Expr.add a b, v => do
    let va ← evalAt a v
    let vb ← evalAt b v
    pure (va + vb)
  | Expr.mul a b, v => do
    let va ← evalAt a v
    let vb ← evalAt b v
    pure (va * vb)
  | Expr.div a b, v => do
    let va ← evalAt a v
    let vb ← evalAt b v
    if vb = 0 then none else pure (va / vb)
  | Expr.pow a b, v => do
    let va ← evalAt a v
    let vb ← evalAt b v
    if vb.den = 1 then
      if 0 ≤ vb.num then pure (va ^ vb.num.toNat)
      else if va = 0 then none else pure ((va ^ (-vb.num).toNat)⁻¹)
    else none
  | Expr.log _, _ => none
  | Expr.fapp _ _, _ => none

/-- `sp.fraction(sp.simplify(expr))`: rational normal form as a
numerator/denominator pair of polynomials in `x`.  `none` models the
shapes outside the rational fragment (logs, non-integer powers, foreign
symbols, division by a null denominator), on which the source's solver
step fails and the enclosing `except` degrades to an empty result. -/
def toFrac : Expr → Option (Poly × Poly)
  | Expr.num q => some ([q], [1])
  | Expr.sym s => if s = "x" then some ([0, 1], [1]) else none
  | Expr.add a b => do
    let (n1, d1) ← toFrac a
    let (n2, d2) ← toFrac b
    pure (polyAdd (polyMul n1 d2) (polyMul n2 d1), polyMul d1 d2)
  | Expr.mul a b => do
    let (n1, d1) ← toFrac a
    let (n2, d2) ← toFrac b
    pure (polyMul n1 n2, polyMul d1 d2)
  | Expr.div a b => do
    let (n1, d1) ← toFrac a
    let (n2, d2) ← toFrac b
    if normPoly n2 = [] then none else pure (polyMul n1 d2, polyMul d1 n2)
  | Expr.pow a b => do
    let (n1, d1) ← toFrac a
    let e ← constOf b
    if e.den = 1 then
      if 0 ≤ e.num then pure (polyPow n1 e.num.toNat, polyPow d1 e.num.toNat)
      else if normPoly n1 = [] then none
      else pure (polyPow d1 (-e.num).toNat, polyPow n1 (-e.num).toNat)
    else none
  | Expr.log _ => none
  | Expr.fapp _ _ => none

/-- `sp.solve(Eq(p, 0), x)` for a normalised polynomial `p`: exact roots
for degrees ≤ 2 (a nonzero constant has no roots; a quadratic with zero
discriminant has the single double root; otherwise the conjugate pair
over `√disc`).  Shapes the model does not solve yield `none`, which the
caller's `except` branch turns into an empty list. -/
def solvePoly : Poly → Option (List Root)
  | [] => none
  | [_] => some []
  | [c, b] => if b = 0 then none else some [⟨-c / b, 0, 0⟩]
  | [c, b, a] =>
    if a = 0 then none
    else
      let d := b ^ 2 - 4 * a * c
      if d = 0 then some [⟨-b / (2 * a), 0, 0⟩]
      else some [⟨-b / (2 * a), 1 / (2 * a), d⟩, ⟨-b / (2 * a), -(1 / (2 * a)), d⟩]
  | _ => none

/-- `find_denominator_singularities` (main.py lines 23-33): reduce the
expression to a fraction; if the denominator is the constant 1 there are
no singularities; otherwise solve denominator = 0, keep the solutions
with zero imaginary part and simplify each.  Every failure path returns
`[]` (the `except` branch). -/
def find_denominator_singularities (e : Expr) : List Root :=
  match toFrac e with
  | none => []
  | some (_, dn) =>
    let d := normPoly dn
    if d = [1] then []
    else
      match solvePoly d with
      | none => []
      | some sols => (sols.filter imZero).map simplifyRoot

/-- Append an element to a list unless already present: one step of
Python `set.add` iterated in insertion order. -/
def insertUnique {α : Type} [DecidableEq α] (l : List α) (a : α) : List α :=
  if a ∈ l then l else l ++ [a]

/-- Duplicate-free union of collected sub-term lists, modelling the set
semantics of sympy's `atoms`. -/
def listUnion {α : Type} [DecidableEq α] (l1 l2 : List α) : List α :=
  l2.foldl insertUnique l1

/-- The arguments of all `log` sub-terms (`expr.atoms(sp.log)` followed
by taking `args[0]` of each), without duplicates. -/
def logArgs : Expr → List Expr
  | Expr.num _ => []
  | Expr.sym _ => []
  | Expr.add a b => listUnion (logArgs a) (logArgs b)
  | Expr.mul a b => listUnion (logArgs a) (logArgs b)
  | Expr.div a b => listUnion (logArgs a) (logArgs b)
  | Expr.pow a b => listUnion (logArgs a) (logArgs b)
  | Expr.log a => insertUnique (logArgs a) a
  | Expr.fapp _ a => logArgs a

/-- `find_log_constraints` (main.py lines 35-42): a strict constraint
`arg > 0` for every log sub-term's argument. -/
def find_log_constraints (e : Expr) : List Constraint :=
  (logArgs e).map (fun a => Constraint.strictGT a (Bound.val 0))

/-- All power sub-terms of the expression (`expr.atoms(sp.Pow)`),
without duplicates. -/
def powAtoms : Expr → List Expr
  | Expr.num _ => []
  | Expr.sym _ => []
  | Expr.add a b => listUnion (powAtoms a) (powAtoms b)
  | Expr.mul a b => listUnion (powAtoms a) (powAtoms b)
  | Expr.div a b => listUnion (powAtoms a) (powAtoms b)
  | Expr.pow a b => insertUnique (listUnion (powAtoms a) (powAtoms b)) (Expr.pow a b)
  | Expr.log a => powAtoms a
  | Expr.fapp _ a => powAtoms a

/-- `find_even_root_problems` (main.py lines 44-53): for every power
sub-term whose exponent is a rational with even denominator, the code
appends `StrictGreaterThan(base, -oo)` — the base being compared with
`-oo`, not with `0`. -/
def find_even_root_problems (e : Expr) : List Constraint :=
  (powAtoms e).foldr
    (fun p acc =>
      match p with
      | Expr.pow base ex =>
        match constOf ex with
        | some q => if q.den % 2 = 0 then Constraint.strictGT base Bound.negInf :: acc else acc
        | none => acc
      | _ => acc)
    []

/-- Python `sep.join(parts)`. -/
def strJoin (sep : String) : List String → String
  | [] => ""
  | [s] => s
  | s :: rest => s ++ sep ++ strJoin sep rest

/-- `str(sp.N(v))` on an exclusion value, modelled as exact rational (or
surd) rendering instead of decimal float formatting. -/
def showRoot (r : Root) : String :=
  if r.irr = 0 ∨ r.rad = 0 then toString r.re
  else toString r.re ++ " + " ++ toString r.irr ++ "*sqrt(" ++ toString r.rad ++ ")"

/-- The tuple returned by `compute_domain`, with the source's variable
names as fields. -/
structure DomainResult : Type where
  desc : String
  exceptions : List Root
  logs : List Constraint
  roots : List Constraint
  deriving DecidableEq

/-- The `parts` list built by `compute_domain`: one clause per nonempty
finding (excluded values, log caveat, even-root caveat), in that
order. -/
def domainParts (domain_exceptions : List Root) (logs roots : List Constraint) :
    List String :=
  (if domain_exceptions = [] then []
   else ["excepto x = " ++ strJoin ", " (domain_exceptions.map showRoot)]) ++
  (if logs = [] then [] else ["y además los argumentos de log deben ser > 0"]) ++
  (if roots = [] then [] else ["y cuidar raíces de índice par (radicandos >= 0)"])

/-- `compute_domain` (main.py lines 55-73): gather the simplified
denominator singularities into a set, the log and even-root constraint
lists, and compose the textual description — the plain all-reals text
when nothing was found, otherwise the all-reals-except text with the
applicable clauses joined by semicolons. -/
def compute_domain (e : Expr) : DomainResult :=
  let den_sing := find_denominator_singularities e
  let domain_exceptions := den_sing.foldl (fun acc s => insertUnique acc (simplifyRoot s)) []
  let logs := find_log_constraints e
  let roots := find_even_root_problems e
  if domain_exceptions = [] ∧ logs = [] ∧ roots = [] then
    ⟨"Dominio: todos los reales", domain_exceptions, logs, roots⟩
  else
    ⟨"Dominio: todos los reales, " ++
        strJoin "; " (domainParts domain_exceptions logs roots),
     domain_exceptions, logs, roots⟩

/-- `compute_intersections` (main.py lines 75-83): the simplified value
at `x = 0` (where `none` models sympy's undefined/`zoo` outcome) and the
real roots of `expr = 0` (the roots of the rational normal form's
numerator with zero imaginary part).  A solver failure yields
`(none, [])` via the `except` branch. -/
def compute_intersections (e : Expr) : Option ℚ × List Root :=
  match toFrac e with
  | none => (none, [])
  | some (nm, _) =>
    match solvePoly (normPoly nm) with
    | none => (none, [])
    | some sols => (evalAt e 0, sols.filter imZero)

/-- The integer sample points `list(range(-50, 51, 2))` of the range
fallback. -/
def rangeSampleVals : List ℚ := (List.range 51).map (fun k => -50 + 2 * (k : ℚ))

/-- The finite sampled values of the range fallback: evaluation results
at the fixed window, with non-finite and non-real outcomes discarded. -/
def fallbackSamples (e : Expr) : List ℚ :=
  rangeSampleVals.filterMap (fun v => evalAt e v)

/-- `compute_range` (main.py lines 85-103).  The symbolic attempt
`function_range(expr, x, S.Reals)` is an unmodelled CAS call: its
outcome is the explicit first argument (`some s` = the attempt returned
the string `s`, `none` = it raised and the `except` branch runs).  The
fallback reports the minimum and maximum of the finite samples (the
`.4g` float formatting is modelled as exact rational rendering), or the
no-estimate text when no finite sample exists. -/
def compute_range (exact : Option String) (e : Expr) : String :=
  match exact with
  | some s => s
  | none =>
    match fallbackSamples e with
    | [] => "No se pudo estimar el recorrido"
    | h :: t =>
      "aprox [" ++ toString (t.foldl min h) ++ ", " ++ toString (t.foldl max h) ++
        "] (muestreo)"

/-- `sp.srepr(expr)`, modelled as a structural rendering of the AST. -/
def reprExpr : Expr → String
  | Expr.num q => "Rational(" ++ toString q ++ ")"
  | Expr.sym s => "Symbol(" ++ s ++ ")"
  | Expr.add a b => "Add(" ++ reprExpr a ++ ", " ++ reprExpr b ++ ")"
  | Expr.mul a b => "Mul(" ++ reprExpr a ++ ", " ++ reprExpr b ++ ")"
  | Expr.div a b => "Div(" ++ reprExpr a ++ ", " ++ reprExpr b ++ ")"
  | Expr.pow a b => "Pow(" ++ reprExpr a ++ ", " ++ reprExpr b ++ ")"
  | Expr.log a => "log(" ++ reprExpr a ++ ")"
  | Expr.fapp f a => f ++ "(" ++ reprExpr a ++ ")"

/-- The text `str(e)` of the exception caught by `evaluate_point`,
modelled by the representative message sympy produces when the
substituted value cannot be reduced to a real float. -/
def evalErrMsg (_e : Expr) (_v : ℚ) : String := "Cannot convert expression to float"

/-- `evaluate_point` (main.py lines 105-116): on success, the trace
holds the original representation, the substitution step and the
numeric reduction, with the numeric result and a null error; on
failure, the steps built so far are discarded and a fresh single-entry
trace is returned together with a null result and the error text. -/
def evaluate_point (e : Expr) (x_val : ℚ) : List String × Option ℚ × Option String :=
  match evalAt e x_val with
  | some numeric =>
    (["Expresión original: " ++ reprExpr e,
      "Sustituyendo x = " ++ toString x_val ++ " -> " ++ toString numeric,
      "Cálculo numérico: f(" ++ toString x_val ++ ") = " ++ toString numeric],
     some numeric, none)
  | none =>
    (["Error en evaluación: " ++ evalErrMsg e x_val], none, some (evalErrMsg e x_val))

/-- One pass of the `while cur <= x_max` loop of `sample_function`: skip
the step when it lies within `1e-2` of a convertible exclusion value,
otherwise keep the point exactly when the evaluation result is a finite
real.  The fuel only bounds the recursion; it is chosen large enough
that, whenever `x_min < x_max`, the loop exits through the
`x_max < cur` test exactly as the source does. -/
def sampleLoop (e : Expr) (excl : List Root) (x_max step : ℚ) :
    ℕ → ℚ → List ℚ × List ℚ
  | 0, _ => ([], [])
  | fuel + 1, cur =>
    if x_max < cur then ([], [])
    else
      let skip := excl.any (fun s =>
        match floatOfRoot s with
        | some sval => decide (|cur - sval| < 1 / 100)
        | none => false)
      let rest := sampleLoop e excl x_max step fuel (cur + step)
      if skip then rest
      else
        match evalAt e cur with
        | some yv => (cur :: rest.1, yv :: rest.2)
        | none => rest

/-- `sample_function` (main.py lines 118-145): step linearly from
`x_min` by `(x_max - x_min) / max(1, n_points)` while `cur <= x_max`.
(For `x_min = x_max` the source's loop does not terminate; the model is
only used with `x_min ≠ x_max`.) -/
def sample_function (e : Expr) (domain_exceptions : List Root)
    (x_min x_max : ℚ) (n_points : ℕ) : List ℚ × List ℚ :=
  let step := (x_max - x_min) / ((max 1 n_points : ℕ) : ℚ)
  sampleLoop e domain_exceptions x_max step (max 1 n_points + 2) x_min

/-- Tokens of the input grammar accepted by the parse model. -/
inductive Tok : Type
  | tnum (n : ℕ)
  | tid (s : String)
  | tplus
  | tminus
  | tstar
  | tslash
  | tpowOp
  | tlparen
  | trparen
  deriving DecidableEq

/-- Longest prefix of characters satisfying a predicate, with the rest. -/
def spanPred (p : Char → Bool) : List Char → List Char × List Char
  | [] => ([], [])
  | c :: cs =>
    if p c then
      let r := spanPred p cs
      (c :: r.1, r.2)
    else ([], c :: cs)

/-- Decimal digits to a natural number. -/
def digitsToNat (ds : List Char) : ℕ :=
  ds.foldl (fun acc c => 10 * acc + (c.toNat - 48)) 0

/-- Tokenizer for the parse model; an unexpected character is a parse
error (as sympy's `SympifyError` on malformed input). -/
def tokenizeAux : ℕ → List Char → Except String (List Tok)
  | 0, _ => Except.error "could not parse: input too long"
  | _ + 1, [] => Except.ok []
  | fuel + 1, c :: cs =>
    if c = ' ' then tokenizeAux fuel cs
    else if c.isDigit then
      let r := spanPred Char.isDigit (c :: cs)
      do
        let ts ← tokenizeAux fuel r.2
        pure (Tok.tnum (digitsToNat r.1) :: ts)
    else if c.isAlpha then
      let r := spanPred (fun ch => ch.isAlphanum || ch = '_') (c :: cs)
      do
        let ts ← tokenizeAux fuel r.2
        pure (Tok.tid (String.mk r.1) :: ts)
    else if c = '+' then do
      let ts ← tokenizeAux fuel cs
      pure (Tok.tplus :: ts)
    else if c = '-' then do
      let ts ← tokenizeAux fuel cs
      pure (Tok.tminus :: ts)
    else if c = '/' then do
      let ts ← tokenizeAux fuel cs
      pure (Tok.tslash :: ts)
    else if c = '^' then do
      let ts ← tokenizeAux fuel cs
      pure (Tok.tpowOp :: ts)
    else if c = '(' then do
      let ts ← tokenizeAux fuel cs
      pure (Tok.tlparen :: ts)
    else if c = ')' then do
      let ts ← tokenizeAux fuel cs
      pure (Tok.trparen :: ts)
    else if c = '*' then
      match cs with
      | '*' :: cs2 => do
        let ts ← tokenizeAux fuel cs2
        pure (Tok.tpowOp :: ts)
      | _ => do
        let ts ← tokenizeAux fuel cs
        pure (Tok.tstar :: ts)
    else Except.error ("could not parse: unexpected character " ++ String.mk [c])

mutual

/-- Sums and differences (lowest precedence). -/
def parseSum : ℕ → List Tok → Except String (Expr × List Tok)
  | 0, _ => Except.error "could not parse: expression too deeply nested"
  | fuel + 1, ts => do
    let r ← parseProd fuel ts
    parseSumRest fuel r.1 r.2

/-- Iterated `+`/`-` continuations of a sum. -/
def parseSumRest : ℕ → Expr → List Tok → Except String (Expr × List Tok)
  | 0, _, _ => Except.error "could not parse: expression too deeply nested"
  | fuel + 1, acc, ts =>
    match ts with
    | Tok.tplus :: rest => do
      let r ← parseProd fuel rest
      parseSumRest fuel (Expr.add acc r.1) r.2
    | Tok.tminus :: rest => do
      let r ← parseProd fuel rest
      parseSumRest fuel (Expr.add acc (Expr.mul (Expr.num (-1)) r.1)) r.2
    | _ => Except.ok (acc, ts)

/-- Products and quotients. -/
def parseProd : ℕ → List Tok → Except String (Expr × List Tok)
  | 0, _ => Except.error "could not parse: expression too deeply nested"
  | fuel + 1, ts => do
    let r ← parseUnary fuel ts
    parseProdRest fuel r.1 r.2

/-- Iterated `*`/`/` continuations of a product. -/
def parseProdRest : ℕ → Expr → List Tok → Except String (Expr × List Tok)
  | 0, _, _ => Except.error "could not parse: expression too deeply nested"
  | fuel + 1, acc, ts =>
    match ts with
    | Tok.tstar :: rest => do
      let r ← parseUnary fuel rest
      parseProdRest fuel (Expr.mul acc r.1) r.2
    | Tok.tslash :: rest => do
      let r ← parseUnary fuel rest
      parseProdRest fuel (Expr.div acc r.1) r.2
    | _ => Except.ok (acc, ts)

/-- Unary minus (represented as multiplication by `-1`, as sympy does). -/
def parseUnary : ℕ → List Tok → Except String (Expr × List Tok)
  | 0, _ => Except.error "could not parse: expression too deeply nested"
  | fuel + 1, ts =>
    match ts with
    | Tok.tminus :: rest => do
      let r ← parseUnary fuel rest
      pure (Expr.mul (Expr.num (-1)) r.1, r.2)
    | _ => parsePowTerm fuel ts

/-- Right-associative exponentiation. -/
def parsePowTerm : ℕ → List Tok → Except String (Expr × List Tok)
  | 0, _ => Except.error "could not parse: expression too deeply nested"
  | fuel + 1, ts => do
    let b ← parseAtom fuel ts
    match b.2 with
    | Tok.tpowOp :: rest => do
      let e ← parseUnary fuel rest
      pure (Expr.pow b.1 e.1, e.2)
    | _ => Except.ok b

/-- Atoms: numbers, identifiers (a bare identifier becomes a fresh
symbol, an applied unknown identifier a fresh function — sympy accepts
both), the known functions `sqrt`/`log`, and parenthesised groups. -/
def parseAtom : ℕ → List Tok → Except String (Expr × List Tok)
  | 0, _ => Except.error "could not parse: expression too deeply nested"
  | fuel + 1, ts =>
    match ts with
    | Tok.tnum n :: rest => Except.ok (Expr.num (n : ℚ), rest)
    | Tok.tid s :: Tok.tlparen :: rest => do
      let a ← parseSum fuel rest
      match a.2 with
      | Tok.trparen :: rest2 =>
        if s = "sqrt" then Except.ok (Expr.pow a.1 (Expr.num (1 / 2)), rest2)
        else if s = "log" ∨ s = "ln" then Except.ok (Expr.log a.1, rest2)
        else Except.ok (Expr.fapp s a.1, rest2)
      | _ => Except.error "could not parse: expected closing parenthesis"
    | Tok.tid s :: rest => Except.ok (Expr.sym s, rest)
    | Tok.tlparen :: rest => do
      let a ← parseSum fuel rest
      match a.2 with
      | Tok.trparen :: rest2 => Except.ok (a.1, rest2)
      | _ => Except.error "could not parse: expected closing parenthesis"
    | _ => Except.error "could not parse: unexpected token"

end

/-- Models `sp.sympify(expr_str, evaluate=True)` on the engine's input
grammar: a total function whose `Except.error` models the raised
`SympifyError`.  Note that, like sympy, it accepts unknown identifiers
as fresh symbols and unknown applied identifiers as fresh functions. -/
def sympify (s : String) : Except String Expr := do
  let ts ← tokenizeAux (s.length + 1) s.data
  let r ← parseSum ((ts.length + 1) * 6) ts
  match r.2 with
  | [] => Except.ok r.1
  | _ => Except.error "could not parse: unexpected trailing input"

/-- `safe_sympify` (main.py lines 15-21): wrap the conversion in
`try`/`except`, returning `(expr, None)` on success and
`(None, str(e))` on failure. -/
def safe_sympify (s : String) : Option Expr × Option String :=
  match sympify s with
  | Except.ok e => (some e, none)
  | Except.error m => (none, some m)

/-! ### Helper lemmas -/

/-- Unfolding lemma: evaluation at a cons cell. -/
theorem evalR_cons (c : ℚ) (p : Poly) (t : ℝ) :
    Poly.evalR (c :: p) t = (c : ℝ) + t * Poly.evalR p t := rfl

/-- Stripping trailing zero coefficients does not change evaluation. -/
theorem evalR_normPoly (p : Poly) (t : ℝ) : Poly.evalR (normPoly p) t = Poly.evalR p t := by
  induction p with
  | nil => rfl
  | cons c rest ih =>
    cases hr : normPoly rest with
    | nil =>
      have hrest : Poly.evalR rest t = 0 := by rw [← ih, hr]; rfl
      by_cases hc : c = 0
      · have hn : normPoly (c :: rest) = [] := by simp [normPoly, hr, hc]
        rw [hn, evalR_cons, hrest, hc]
        show (0 : ℝ) = (0 : ℚ) + t * 0
        push_cast
        ring
      · have hn : normPoly (c :: rest) = [c] := by simp [normPoly, hr, hc]
        rw [hn, evalR_cons, evalR_cons, hrest]
        show (c : ℝ) + t * Poly.evalR [] t = (c : ℝ) + t * 0
        rfl
    | cons d r =>
      have hn : normPoly (c :: rest) = c :: d :: r := by simp [normPoly, hr]
      rw [hn, evalR_cons, evalR_cons,
        show Poly.evalR (c :: rest) t = (c : ℝ) + t * Poly.evalR rest t from rfl,
        ← ih, hr, evalR_cons]

/-- The checked square root is nonnegative and squares back to its input. -/
theorem ratSqrt_spec (q k : ℚ) (h : ratSqrt q = some k) : 0 ≤ k ∧ k * k = q := by
  unfold ratSqrt at h
  by_cases hk : ((Nat.sqrt q.num.toNat : ℚ)) / ((Nat.sqrt q.den : ℚ)) *
      (((Nat.sqrt q.num.toNat : ℚ)) / ((Nat.sqrt q.den : ℚ))) = q
  · simp only [if_pos hk, Option.some.injEq] at h
    subst h
    refine ⟨div_nonneg (by positivity) (by positivity), hk⟩
  · simp [if_neg hk] at h

/-- Canonicalising a root does not change its real value. -/
theorem simplifyRoot_val (r : Root) : (simplifyRoot r).val = r.val := by
  unfold simplifyRoot
  by_cases h : r.irr = 0 ∨ r.rad = 0
  · simp only [if_pos h]
    rcases h with h | h
    · simp [Root.val, h]
    · simp [Root.val, h, Real.sqrt_zero]
  · simp only [if_neg h]
    cases hs : ratSqrt r.rad with
    | none => rfl
    | some k =>
      obtain ⟨hk0, hkk⟩ := ratSqrt_spec r.rad k hs
      have hcast : ((r.rad : ℚ) : ℝ) = (k : ℝ) * (k : ℝ) := by
        rw [← hkk]; push_cast; ring
      simp only [Root.val, hcast]
      rw [Real.sqrt_mul_self (by exact_mod_cast hk0)]
      push_cast
      ring

/-- Canonicalising a root with zero imaginary part yields a nonnegative
radicand. -/
theorem simplifyRoot_rad_nonneg (r : Root) (h : imZero r = true) :
    0 ≤ (simplifyRoot r).rad := by
  unfold simplifyRoot
  by_cases hz : r.irr = 0 ∨ r.rad = 0
  · simp [if_pos hz]
  · simp only [if_neg hz]
    cases hs : ratSqrt r.rad with
    | none =>
      simp only [imZero, Bool.or_eq_true, decide_eq_true_eq] at h
      rcases h with h | h
      · exact h
      · exact absurd (Or.inl h) hz
    | some k => simp

/-- A root with zero imaginary part and a nonzero radical part has a
nonnegative radicand. -/
theorem imZero_rad_nonneg (r : Root) (h : imZero r = true) (hirr : r.irr ≠ 0) :
    0 ≤ r.rad := by
  simp only [imZero, Bool.or_eq_true, decide_eq_true_eq] at h
  rcases h with h | h
  · exact h
  · exact absurd h hirr

/-- Every root returned by the solver that passes the reality filter
is an exact zero of the input polynomial. -/
theorem solvePoly_root_zero (p : Poly) (rs : List Root) (r : Root)
    (hp : solvePoly p = some rs) (hm : r ∈ rs) (hi : imZero r = true) :
    Poly.evalR p r.val = 0 := by
  match p with
  | [] => simp [solvePoly] at hp
  | [c] =>
    simp only [solvePoly, Option.some.injEq] at hp
    subst hp
    simp at hm
  | [c, b] =>
    by_cases hb : b = 0
    · rw [solvePoly, if_pos hb] at hp
      exact absurd hp (by simp)
    · rw [solvePoly, if_neg hb] at hp
      have hrs : rs = [⟨-c / b, 0, 0⟩] := by
        cases hp
        rfl
      subst hrs
      simp only [List.mem_singleton] at hm
      subst hm
      have hbR : (b : ℝ) ≠ 0 := by exact_mod_cast hb
      have hv : Root.val ⟨-c / b, 0, 0⟩ = ((-c / b : ℚ) : ℝ) := by
        simp [Root.val]
      rw [evalR_cons, evalR_cons, hv]
      show (c : ℝ) + ((-c / b : ℚ) : ℝ) * ((b : ℝ) + ((-c / b : ℚ) : ℝ) * Poly.evalR [] _) = 0
      have h0 : Poly.evalR [] (((-c / b : ℚ) : ℝ)) = 0 := rfl
      rw [h0]
      push_cast
      field_simp
  | [c, b, a] =>
    by_cases ha : a = 0
    · rw [solvePoly, if_pos ha] at hp
      exact absurd hp (by simp)
    · rw [solvePoly, if_neg ha] at hp
      have haR : (a : ℝ) ≠ 0 := by exact_mod_cast ha
      by_cases hdz : b ^ 2 - 4 * a * c = 0
      · rw [if_pos hdz] at hp
        have hrs : rs = [⟨-b / (2 * a), 0, 0⟩] := by
          cases hp
          rfl
        subst hrs
        simp only [List.mem_singleton] at hm
        subst hm
        have hv : Root.val ⟨-b / (2 * a), 0, 0⟩ = ((-b / (2 * a) : ℚ) : ℝ) := by
          simp [Root.val]
        have hdR : (b : ℝ) ^ 2 - 4 * (a : ℝ) * (c : ℝ) = 0 := by exact_mod_cast hdz
        rw [evalR_cons, evalR_cons, evalR_cons, hv]
        have h0 : Poly.evalR [] (((-b / (2 * a) : ℚ) : ℝ)) = 0 := rfl
        rw [h0]
        push_cast
        field_simp
        linear_combination (-(a : ℝ)) * hdR
      · rw [if_neg hdz] at hp
        have hrs :
            rs = [⟨-b / (2 * a), 1 / (2 * a), b ^ 2 - 4 * a * c⟩,
                  ⟨-b / (2 * a), -(1 / (2 * a)), b ^ 2 - 4 * a * c⟩] := by
          cases hp
          rfl
        subst hrs
        simp only [List.mem_cons, List.not_mem_nil, or_false] at hm
        have h2a : (2 * a : ℚ) ≠ 0 := mul_ne_zero two_ne_zero ha
        have hd0 : 0 ≤ (b ^ 2 - 4 * a * c : ℚ) := by
          rcases hm with h1 | h1
          · subst h1
            exact imZero_rad_nonneg _ hi (show (1 / (2 * a) : ℚ) ≠ 0 from one_div_ne_zero h2a)
          · subst h1
            exact imZero_rad_nonneg _ hi
              (show (-(1 / (2 * a)) : ℚ) ≠ 0 from neg_ne_zero.mpr (one_div_ne_zero h2a))
        have hd0R : (0 : ℝ) ≤ ((b ^ 2 - 4 * a * c : ℚ) : ℝ) := by exact_mod_cast hd0
        have hs2 : Real.sqrt ((b ^ 2 - 4 * a * c : ℚ) : ℝ) ^ 2 =
            ((b ^ 2 - 4 * a * c : ℚ) : ℝ) := Real.sq_sqrt hd0R
        push_cast at hs2
        rcases hm with hm | hm
        · subst hm
          rw [evalR_cons, evalR_cons, evalR_cons]
          have h0 : ∀ t : ℝ, Poly.evalR [] t = 0 := fun _ => rfl
          rw [h0]
          simp only [Root.val]
          push_cast
          field_simp
          linear_combination (4 * (a : ℝ) ^ 3) * hs2
        · subst hm
          rw [evalR_cons, evalR_cons, evalR_cons]
          have h0 : ∀ t : ℝ, Poly.evalR [] t = 0 := fun _ => rfl
          rw [h0]
          simp only [Root.val]
          push_cast
          field_simp
          linear_combination (4 * (a : ℝ) ^ 3) * hs2
  | _ :: _ :: _ :: _ :: _ => simp [solvePoly] at hp

/-- A real radicand makes the reality filter succeed. -/
theorem imZero_of_rad_nonneg (r : Root) (h : 0 ≤ r.rad) : imZero r = true := by
  simp [imZero, h]

/-- Unfolding of `find_denominator_singularities` once the fraction
reduction is known. -/
theorem find_den_eq (e : Expr) (nm dn : Poly) (hf : toFrac e = some (nm, dn)) :
    find_denominator_singularities e =
      (if normPoly dn = [1] then []
       else
         match solvePoly (normPoly dn) with
         | none => []
         | some sols => (sols.filter imZero).map simplifyRoot) := by
  unfold find_denominator_singularities
  rw [hf]

/-- Every singularity reported by `find_denominator_singularities` has a
real (nonnegative) radicand and is an exact real zero of the reduced
denominator. -/
theorem find_den_mem_spec (e : Expr) (nm dn : Poly)
    (hf : toFrac e = some (nm, dn)) (r : Root)
    (hm : r ∈ find_denominator_singularities e) :
    0 ≤ r.rad ∧ Poly.evalR dn r.val = 0 := by
  rw [find_den_eq e nm dn hf] at hm
  split at hm
  · simp at hm
  · split at hm
    · simp at hm
    · rename_i sols hs
      simp only [List.mem_map, List.mem_filter] at hm
      obtain ⟨r0, ⟨hr0s, hr0i⟩, rfl⟩ := hm
      refine ⟨simplifyRoot_rad_nonneg r0 hr0i, ?_⟩
      rw [simplifyRoot_val, ← evalR_normPoly]
      exact solvePoly_root_zero _ _ _ hs hr0s hr0i

/-- Membership in an `insertUnique` fold comes from the seed or from the
mapped list. -/
theorem mem_foldl_insertUnique {α β : Type} [DecidableEq α] (f : β → α) :
    ∀ (l : List β) (init : List α) (a : α),
      a ∈ l.foldl (fun acc s => insertUnique acc (f s)) init →
      a ∈ init ∨ ∃ b ∈ l, a = f b := by
  intro l
  induction l with
  | nil => exact fun init a h => Or.inl h
  | cons x xs ih =>
    intro init a h
    rcases ih _ _ h with h' | ⟨b, hb, rfl⟩
    · simp only [insertUnique] at h'
      split at h'
      · exact Or.inl h'
      · rcases List.mem_append.mp h' with h'' | h''
        · exact Or.inl h''
        · simp only [List.mem_singleton] at h''
          exact Or.inr ⟨x, List.mem_cons_self x xs, h''⟩
    · exact Or.inr ⟨b, List.mem_cons_of_mem x hb, rfl⟩

/-- The exclusion set of `compute_domain` is the deduplicated list of
re-simplified singularities. -/
theorem compute_domain_exceptions_eq (e : Expr) :
    (compute_domain e).exceptions =
      (find_denominator_singularities e).foldl
        (fun acc s => insertUnique acc (simplifyRoot s)) [] := by
  simp only [compute_domain]
  split <;> rfl

/-- Claim C1: the exclusion set comes from solving the reduced
denominator: nothing is reported when the denominator is the constant 1,
otherwise the reported list is exactly the simplified real-filtered
solution list, and every reported value — also after the set-building in
`compute_domain` — has zero imaginary part (a real radicand) and makes
the reduced denominator evaluate to exactly zero under exact real
arithmetic. -/
theorem domain_exclusions_denominator_zero (e : Expr) (nm dn : Poly)
    (hf : toFrac e = some (nm, dn)) :
    (normPoly dn = [1] → find_denominator_singularities e = []) ∧
    (∀ sols, solvePoly (normPoly dn) = some sols → normPoly dn ≠ [1] →
      find_denominator_singularities e = (sols.filter imZero).map simplifyRoot) ∧
    (∀ r ∈ find_denominator_singularities e, 0 ≤ r.rad ∧ Poly.evalR dn r.val = 0) ∧
    (∀ r ∈ (compute_domain e).exceptions, 0 ≤ r.rad ∧ Poly.evalR dn r.val = 0) := by
  refine ⟨?_, ?_, ?_, ?_⟩
  · intro h1
    rw [find_den_eq e nm dn hf]
    simp [h1]
  · intro sols hs h1
    rw [find_den_eq e nm dn hf]
    simp [h1, hs]
  · exact fun r hr => find_den_mem_spec e nm dn hf r hr
  · intro r hr
    rw [compute_domain_exceptions_eq] at hr
    rcases mem_foldl_insertUnique simplifyRoot _ _ _ hr with h | ⟨r0, hr0, rfl⟩
    · simp at h
    · obtain ⟨hrad, hzero⟩ := find_den_mem_spec e nm dn hf r0 hr0
      refine ⟨simplifyRoot_rad_nonneg r0 (imZero_of_rad_nonneg r0 hrad), ?_⟩
      rw [simplifyRoot_val]
      exact hzero

/-- Witness for C1 at the concrete expression `1/x`. -/
theorem domain_exclusions_denominator_zero_witness :
    0 ≤ (Root.mk 0 0 0).rad ∧ Poly.evalR [0, 1] (Root.mk 0 0 0).val = 0 :=
  (domain_exclusions_denominator_zero (Expr.div (Expr.num 1) X) [1] [0, 1]
    (by decide)).2.2.1 ⟨0, 0, 0⟩ (by decide)

/-- Every point kept by the sampling loop pairs an `x` with the value
the expression evaluates to there. -/
theorem sampleLoop_forall2 (e : Expr) (excl : List Root) (x_max step : ℚ) :
    ∀ (fuel : ℕ) (cur : ℚ),
      List.Forall₂ (fun a b => evalAt e a = some b)
        (sampleLoop e excl x_max step fuel cur).1
        (sampleLoop e excl x_max step fuel cur).2 := by
  intro fuel
  induction fuel with
  | zero => intro cur; exact List.Forall₂.nil
  | succ n ih =>
    intro cur
    simp only [sampleLoop]
    split
    · exact List.Forall₂.nil
    · split
      · exact ih (cur + step)
      · cases hev : evalAt e cur with
        | none => exact ih (cur + step)
        | some yv => exact List.Forall₂.cons hev (ih (cur + step))

/-- No point kept by the sampling loop lies within `1e-2` of a
convertible exclusion value. -/
theorem sampleLoop_avoids (e : Expr) (excl : List Root) (x_max step : ℚ) :
    ∀ (fuel : ℕ) (cur x' : ℚ), x' ∈ (sampleLoop e excl x_max step fuel cur).1 →
      ∀ s ∈ excl, ∀ sv, floatOfRoot s = some sv → 1 / 100 ≤ |x' - sv| := by
  intro fuel
  induction fuel with
  | zero => intro cur x' hx; simp [sampleLoop] at hx
  | succ n ih =>
    intro cur x' hx s hs sv hsv
    simp only [sampleLoop] at hx
    by_cases hlt : x_max < cur
    · rw [if_pos hlt] at hx
      simp at hx
    · rw [if_neg hlt] at hx
      by_cases hskip :
          (excl.any (fun s =>
            match floatOfRoot s with
            | some sval => decide (|cur - sval| < 1 / 100)
            | none => false)) = true
      · rw [if_pos hskip] at hx
        exact ih (cur + step) x' hx s hs sv hsv
      · rw [if_neg hskip] at hx
        cases hev : evalAt e cur with
        | none =>
          rw [hev] at hx
          exact ih (cur + step) x' hx s hs sv hsv
        | some yv =>
          rw [hev] at hx
          rcases List.mem_cons.mp hx with rfl | hx'
          · rw [Bool.not_eq_true, List.any_eq_false] at hskip
            have hf := hskip s hs
            rw [hsv] at hf
            simp only [decide_eq_true_eq] at hf
            exact not_lt.mp hf
          · exact ih (cur + step) x' hx' s hs sv hsv

/-- Claim C7: the sampler returns equal-length sequences, every kept
point's `y` is the (finite, real) value of the expression at its `x`,
and no kept `x` lies within the fixed tolerance `1e-2` of a numerically
convertible exclusion value. -/
theorem sample_function_spec (e : Expr) (excl : List Root) (x_min x_max : ℚ) (n : ℕ) :
    (sample_function e excl x_min x_max n).1.length =
      (sample_function e excl x_min x_max n).2.length ∧
    List.Forall₂ (fun a b => evalAt e a = some b)
      (sample_function e excl x_min x_max n).1
      (sample_function e excl x_min x_max n).2 ∧
    (∀ x' ∈ (sample_function e excl x_min x_max n).1, ∀ s ∈ excl,
      ∀ sv, floatOfRoot s = some sv → 1 / 100 ≤ |x' - sv|) := by
  refine ⟨?_, ?_, ?_⟩
  · exact (sampleLoop_forall2 e excl x_max _ _ x_min).length_eq
  · exact sampleLoop_forall2 e excl x_max _ _ x_min
  · intro x' hx s hs sv hsv
    exact sampleLoop_avoids e excl x_max _ _ x_min x' hx s hs sv hsv

/-- Witness for C7: the kept point `x = 0` of a concrete run stays at
least `1e-2` away from the exclusion value `5`. -/
theorem sample_function_spec_witness : 1 / 100 ≤ |(0 : ℚ) - 5| :=
  (sample_function_spec (Expr.num 1) [⟨5, 0, 0⟩] 0 1 1).2.2 0 (by decide)
    ⟨5, 0, 0⟩ (by decide) 5 (by decide)

/-- Claim C9: the sampler is deterministic — two calls with equal
expressions, exclusion sets, interval bounds and point counts return
identical sequences. -/
theorem sample_function_deterministic (e₁ e₂ : Expr) (ex₁ ex₂ : List Root)
    (a₁ a₂ b₁ b₂ : ℚ) (n₁ n₂ : ℕ) (he : e₁ = e₂) (hex : ex₁ = ex₂)
    (ha : a₁ = a₂) (hb : b₁ = b₂) (hn : n₁ = n₂) :
    sample_function e₁ ex₁ a₁ b₁ n₁ = sample_function e₂ ex₂ a₂ b₂ n₂ := by
  subst he
  subst hex
  subst ha
  subst hb
  subst hn
  rfl

/-- Witness for C9 at a concrete call. -/
theorem sample_function_deterministic_witness :
    sample_function (Expr.num 1) [] 0 1 1 = sample_function (Expr.num 1) [] 0 1 1 :=
  sample_function_deterministic _ _ _ _ _ _ _ _ _ _ rfl rfl rfl rfl rfl

/-- Claim C3: for `f(x) = 1/x` the domain exclusion set is exactly
`{0}`, the intersection solver reports no value for `f(0)` and an empty
real-root list, and no sampled `x` over the default interval lies within
`1e-2` of `0`. -/
theorem reciprocal_analysis :
    (compute_domain (Expr.div (Expr.num 1) X)).exceptions = [⟨0, 0, 0⟩] ∧
    compute_intersections (Expr.div (Expr.num 1) X) = (none, []) ∧
    (∀ x' ∈ (sample_function (Expr.div (Expr.num 1) X) [⟨0, 0, 0⟩] (-10) 10 800).1,
      1 / 100 ≤ |x' - 0|) := by
  refine ⟨by decide, by decide, ?_⟩
  intro x' hx
  exact sampleLoop_avoids (Expr.div (Expr.num 1) X) [⟨0, 0, 0⟩] 10 _ _ (-10) x' hx
    ⟨0, 0, 0⟩ (by decide) 0 (by decide)

/-- Witness for C3: the concrete sampled point `x = -10` is at least
`1e-2` away from the exclusion `0`. -/
theorem reciprocal_analysis_witness : 1 / 100 ≤ |(-10 : ℚ) - 0| :=
  reciprocal_analysis.2.2 (-10) (by decide)

/-- A `min` fold is bounded by its seed. -/
theorem foldl_min_le_init : ∀ (t : List ℚ) (h : ℚ), t.foldl min h ≤ h := by
  intro t
  induction t with
  | nil => exact fun h => le_refl h
  | cons a t ih =>
    intro h
    exact le_trans (ih (min h a)) (min_le_left h a)

/-- A `min` fold is a lower bound of the seed and every element. -/
theorem foldl_min_le : ∀ (t : List ℚ) (h y : ℚ), y ∈ h :: t → t.foldl min h ≤ y := by
  intro t
  induction t with
  | nil =>
    intro h y hy
    simp only [List.mem_singleton] at hy
    exact hy ▸ le_refl h
  | cons a t ih =>
    intro h y hy
    rcases List.mem_cons.mp hy with rfl | hy'
    · exact le_trans (foldl_min_le_init t (min y a)) (min_le_left y a)
    · rcases List.mem_cons.mp hy' with rfl | hy''
      · exact le_trans (foldl_min_le_init t (min h y)) (min_le_right h y)
      · exact ih (min h a) y (List.mem_cons_of_mem _ hy'')

/-- A `min` fold returns the seed or one of the elements. -/
theorem foldl_min_mem : ∀ (t : List ℚ) (h : ℚ), t.foldl min h ∈ h :: t := by
  intro t
  induction t with
  | nil => exact fun h => List.mem_singleton.mpr rfl
  | cons a t ih =>
    intro h
    show List.foldl min (min h a) t ∈ h :: a :: t
    rcases List.mem_cons.mp (ih (min h a)) with he | ht
    · rw [he]
      rcases min_choice h a with hc | hc
      · rw [hc]
        exact List.mem_cons_self h (a :: t)
      · rw [hc]
        exact List.mem_cons_of_mem h (List.mem_cons_self a t)
    · exact List.mem_cons_of_mem h (List.mem_cons_of_mem a ht)

/-- A `max` fold is bounded below by its seed. -/
theorem le_foldl_max_init : ∀ (t : List ℚ) (h : ℚ), h ≤ t.foldl max h := by
  intro t
  induction t with
  | nil => exact fun h => le_refl h
  | cons a t ih =>
    intro h
    exact le_trans (le_max_left h a) (ih (max h a))

/-- A `max` fold is an upper bound of the seed and every element. -/
theorem le_foldl_max : ∀ (t : List ℚ) (h y : ℚ), y ∈ h :: t → y ≤ t.foldl max h := by
  intro t
  induction t with
  | nil =>
    intro h y hy
    simp only [List.mem_singleton] at hy
    exact hy ▸ le_refl h
  | cons a t ih =>
    intro h y hy
    rcases List.mem_cons.mp hy with rfl | hy'
    · exact le_trans (le_max_left y a) (le_foldl_max_init t (max y a))
    · rcases List.mem_cons.mp hy' with rfl | hy''
      · exact le_trans (le_max_right h y) (le_foldl_max_init t (max h y))
      · exact ih (max h a) y (List.mem_cons_of_mem _ hy'')

/-- A `max` fold returns the seed or one of the elements. -/
theorem foldl_max_mem : ∀ (t : List ℚ) (h : ℚ), t.foldl max h ∈ h :: t := by
  intro t
  induction t with
  | nil => exact fun h => List.mem_singleton.mpr rfl
  | cons a t ih =>
    intro h
    show List.foldl max (max h a) t ∈ h :: a :: t
    rcases List.mem_cons.mp (ih (max h a)) with he | ht
    · rw [he]
      rcases max_choice h a with hc | hc
      · rw [hc]
        exact List.mem_cons_self h (a :: t)
      · rw [hc]
        exact List.mem_cons_of_mem h (List.mem_cons_self a t)
    · exact List.mem_cons_of_mem h (List.mem_cons_of_mem a ht)

/-- Claim C5: when the exact symbolic range computation fails, the range
estimator samples the fixed integer window, and reports exactly the
minimum and maximum of the finite samples in the approximate-range
text — values that are themselves samples and bound every sample — or
the no-estimate text when no finite sample exists. -/
theorem range_fallback_bounds (e : Expr) :
    (fallbackSamples e = [] → compute_range none e = "No se pudo estimar el recorrido") ∧
    (fallbackSamples e ≠ [] → ∃ m M : ℚ,
      compute_range none e =
        "aprox [" ++ toString m ++ ", " ++ toString M ++ "] (muestreo)" ∧
      m ∈ fallbackSamples e ∧ M ∈ fallbackSamples e ∧
      ∀ y ∈ fallbackSamples e, m ≤ y ∧ y ≤ M) := by
  constructor
  · intro h
    simp only [compute_range, h]
  · intro h
    cases hs : fallbackSamples e with
    | nil => exact absurd hs h
    | cons hd t =>
      refine ⟨t.foldl min hd, t.foldl max hd, ?_, ?_, ?_, ?_⟩
      · simp only [compute_range, hs]
      · exact foldl_min_mem t hd
      · exact foldl_max_mem t hd
      · intro y hy
        exact ⟨foldl_min_le t hd y hy, le_foldl_max t hd y hy⟩

/-- Witness for C5 at the concrete expression `x * x`, whose exact range
attempt is taken to fail. -/
theorem range_fallback_bounds_witness :
    ∃ m M : ℚ,
      compute_range none (Expr.mul X X) =
        "aprox [" ++ toString m ++ ", " ++ toString M ++ "] (muestreo)" ∧
      m ∈ fallbackSamples (Expr.mul X X) ∧ M ∈ fallbackSamples (Expr.mul X X) ∧
      ∀ y ∈ fallbackSamples (Expr.mul X X), m ≤ y ∧ y ≤ M :=
  (range_fallback_bounds (Expr.mul X X)).2 (by decide)

/-- Claim C6: the point evaluator’s trace records the original
representation, the substitution and the numeric reduction on success
(with the numeric result and a null error), reports failures as a trace
entry with a non-null error, and at `f(x) = x + 1`, `v = 2` ends its
trace in the result `3` with a null error. -/
theorem evaluate_point_trace (e : Expr) (v : ℚ) :
    (∀ r, evalAt e v = some r →
      evaluate_point e v =
        (["Expresión original: " ++ reprExpr e,
          "Sustituyendo x = " ++ toString v ++ " -> " ++ toString r,
          "Cálculo numérico: f(" ++ toString v ++ ") = " ++ toString r],
         some r, none)) ∧
    (evalAt e v = none →
      (evaluate_point e v).1 = ["Error en evaluación: " ++ evalErrMsg e v] ∧
      (evaluate_point e v).2.1 = none ∧
      (evaluate_point e v).2.2 = some (evalErrMsg e v)) ∧
    evaluate_point (Expr.add X (Expr.num 1)) 2 =
      (["Expresión original: Add(Symbol(x), Rational(1))",
        "Sustituyendo x = 2 -> 3",
        "Cálculo numérico: f(2) = 3"], some 3, none) := by
  refine ⟨?_, ?_, by decide⟩
  · intro r hr
    simp only [evaluate_point, hr]
  · intro hn
    simp [evaluate_point, hn]

/-- Witness for C6 on the failure branch, at `1/x` evaluated at `0`. -/
theorem evaluate_point_trace_witness :
    (evaluate_point (Expr.div (Expr.num 1) X) 0).1 =
      ["Error en evaluación: " ++ evalErrMsg (Expr.div (Expr.num 1) X) 0] ∧
    (evaluate_point (Expr.div (Expr.num 1) X) 0).2.1 = none ∧
    (evaluate_point (Expr.div (Expr.num 1) X) 0).2.2 =
      some (evalErrMsg (Expr.div (Expr.num 1) X) 0) :=
  (evaluate_point_trace (Expr.div (Expr.num 1) X) 0).2.1 (by decide)

/-- Claim C10: exactly one of the point evaluator’s numeric result and
error is null — on success the result is present and the error null, on
failure the result is null, the error present, and the trace is the
single entry carrying that error message. -/
theorem evaluate_point_result_error_exclusive (e : Expr) (v : ℚ) :
    (∃ r, (evaluate_point e v).2.1 = some r ∧ (evaluate_point e v).2.2 = none) ∨
    ((evaluate_point e v).2.1 = none ∧
      ∃ m, (evaluate_point e v).2.2 = some m ∧
        (evaluate_point e v).1 = ["Error en evaluación: " ++ m]) := by
  cases hv : evalAt e v with
  | some r =>
    left
    exact ⟨r, by simp only [evaluate_point, hv], by simp only [evaluate_point, hv]⟩
  | none =>
    right
    exact ⟨by simp only [evaluate_point, hv],
      evalErrMsg e v, by simp only [evaluate_point, hv], by simp only [evaluate_point, hv]⟩

/-- Claim C2 (code evaluated at the failing input): for `sqrt(x)`,
i.e. `Pow(x, 1/2)`, the even-root scan emits the vacuous constraint
`x > -oo` instead of the non-negativity constraint `x >= 0` the
specification requires. -/
theorem even_root_emits_vacuous_constraint :
    find_even_root_problems (Expr.pow X (Expr.num (1 / 2))) =
      [Constraint.strictGT X Bound.negInf] ∧
    Constraint.strictGT X Bound.negInf ≠ Constraint.strictGT X (Bound.val 0) := by
  exact ⟨by decide, by decide⟩

/-- Claim C4 (as stated, refuted): the parser accepts the unknown symbol
`y` and the unknown function `foo` without error instead of rejecting
them. -/
theorem parse_accepts_unknown_symbol :
    safe_sympify "y" = (some (Expr.sym "y"), none) ∧
    safe_sympify "foo(x)" = (some (Expr.fapp "foo" X), none) := by
  exact ⟨by decide, by decide⟩

/-- Claim C4 (amended): the parser always returns either a successful
`(expr, none)` pair or a failing `(none, message)` pair — never an
uncaught failure — and malformed syntax is rejected with an error, but
unknown symbols and functions are accepted as fresh symbolic atoms. -/
theorem safe_sympify_shape :
    (∀ s : String,
      (∃ e, safe_sympify s = (some e, none)) ∨
      (∃ m, safe_sympify s = (none, some m))) ∧
    (∃ m, safe_sympify "1+" = (none, some m)) ∧
    (∃ m, safe_sympify "x**" = (none, some m)) ∧
    (∃ m, safe_sympify "(x" = (none, some m)) := by
  refine ⟨?_, ⟨"could not parse: unexpected token", by decide⟩,
    ⟨"could not parse: unexpected token", by decide⟩,
    ⟨"could not parse: expected closing parenthesis", by decide⟩⟩
  intro s
  unfold safe_sympify
  cases sympify s with
  | ok e => exact Or.inl ⟨e, rfl⟩
  | error m => exact Or.inr ⟨m, rfl⟩

/-- Each member of a joined list occurs inside the joined string. -/
theorem strJoin_infix_of_mem (sep : String) :
    ∀ (l : List String) (s : String), s ∈ l → s.data <:+: (strJoin sep l).data := by
  intro l
  induction l with
  | nil =>
    intro s h
    simp at h
  | cons a rest ih =>
    intro s h
    cases rest with
    | nil =>
      simp only [List.mem_singleton] at h
      subst h
      exact List.infix_refl _
    | cons b r =>
      rcases List.mem_cons.mp h with rfl | h'
      · show s.data <:+: (s ++ sep ++ strJoin sep (b :: r)).data
        rw [String.data_append, String.data_append, List.append_assoc]
        exact (List.prefix_append s.data _).isInfix
      · show s.data <:+: (a ++ sep ++ strJoin sep (b :: r)).data
        rw [String.data_append]
        exact (ih s h').trans (List.suffix_append _ _).isInfix

/-- The exclusion clause is the first part when exclusions exist. -/
theorem mem_domainParts_exceptions (E : List Root) (L R : List Constraint) (h : E ≠ []) :
    ("excepto x = " ++ strJoin ", " (E.map showRoot)) ∈ domainParts E L R := by
  unfold domainParts
  rw [if_neg h]
  exact List.mem_append.mpr (Or.inl (List.mem_append.mpr (Or.inl (List.mem_singleton.mpr rfl))))

/-- The log caveat is a part when log constraints exist. -/
theorem mem_domainParts_logs (E : List Root) (L R : List Constraint) (h : L ≠ []) :
    "y además los argumentos de log deben ser > 0" ∈ domainParts E L R := by
  unfold domainParts
  rw [if_neg h]
  exact List.mem_append.mpr (Or.inl (List.mem_append.mpr (Or.inr (List.mem_singleton.mpr rfl))))

/-- The even-root caveat is a part when even-root constraints exist. -/
theorem mem_domainParts_roots (E : List Root) (L R : List Constraint) (h : R ≠ []) :
    "y cuidar raíces de índice par (radicandos >= 0)" ∈ domainParts E L R := by
  unfold domainParts
  rw [if_neg h]
  exact List.mem_append.mpr (Or.inr (List.mem_singleton.mpr rfl))

/-- `compute_domain` returns one of exactly two shapes: the bare
all-reals text when nothing was found, or the all-reals text extended
with the joined parts. -/
theorem compute_domain_cases (e : Expr) :
    (((compute_domain e).exceptions = [] ∧ (compute_domain e).logs = [] ∧
        (compute_domain e).roots = []) ∧
      (compute_domain e).desc = "Dominio: todos los reales") ∨
    (¬((compute_domain e).exceptions = [] ∧ (compute_domain e).logs = [] ∧
        (compute_domain e).roots = []) ∧
      (compute_domain e).desc =
        "Dominio: todos los reales, " ++
          strJoin "; " (domainParts (compute_domain e).exceptions
            (compute_domain e).logs (compute_domain e).roots)) := by
  simp only [compute_domain]
  split
  · rename_i h
    exact Or.inl ⟨h, rfl⟩
  · rename_i h
    exact Or.inr ⟨h, rfl⟩

/-- The extended description is never the bare all-reals text (it is
strictly longer). -/
theorem extended_desc_ne_base (J : String) :
    "Dominio: todos los reales, " ++ J ≠ "Dominio: todos los reales" := by
  intro hcontra
  have hd := congrArg String.data hcontra
  rw [String.data_append] at hd
  have hl := congrArg List.length hd
  rw [List.length_append] at hl
  have h1 : ("Dominio: todos los reales, ").data.length = 27 := rfl
  have h2 : ("Dominio: todos los reales").data.length = 25 := rfl
  rw [h1, h2] at hl
  omega

/-- Claim C8: the domain description is the bare all-reals text exactly
when the exclusion set and both constraint lists are empty; otherwise it
is the all-reals-except form naming the excluded values, with the log
and even-root caveats appended as clauses whenever their lists are
nonempty. -/
theorem compute_domain_description (e : Expr) :
    ((compute_domain e).desc = "Dominio: todos los reales" ↔
      ((compute_domain e).exceptions = [] ∧ (compute_domain e).logs = [] ∧
        (compute_domain e).roots = [])) ∧
    ((compute_domain e).exceptions ≠ [] →
      ("excepto x = ").data <:+: ((compute_domain e).desc).data) ∧
    ((compute_domain e).logs ≠ [] →
      ("y además los argumentos de log deben ser > 0").data <:+:
        ((compute_domain e).desc).data) ∧
    ((compute_domain e).roots ≠ [] →
      ("y cuidar raíces de índice par (radicandos >= 0)").data <:+:
        ((compute_domain e).desc).data) := by
  rcases compute_domain_cases e with ⟨hall, hdesc⟩ | ⟨hnot, hdesc⟩
  · refine ⟨⟨fun _ => hall, fun _ => hdesc⟩, ?_, ?_, ?_⟩
    · exact fun hE => absurd hall.1 hE
    · exact fun hL => absurd hall.2.1 hL
    · exact fun hR => absurd hall.2.2 hR
  · have hsuffix :
        (strJoin "; " (domainParts (compute_domain e).exceptions
          (compute_domain e).logs (compute_domain e).roots)).data <:+:
          ((compute_domain e).desc).data := by
      rw [hdesc, String.data_append]
      exact (List.suffix_append _ _).isInfix
    refine ⟨?_, ?_, ?_, ?_⟩
    · constructor
      · intro hdq
        rw [hdesc] at hdq
        exact absurd hdq (extended_desc_ne_base _)
      · intro hall
        exact absurd hall hnot
    · intro hE
      have hm := mem_domainParts_exceptions (compute_domain e).exceptions
        (compute_domain e).logs (compute_domain e).roots hE
      have h1 : ("excepto x = ").data <+:
          ("excepto x = " ++
            strJoin ", " ((compute_domain e).exceptions.map showRoot)).data := by
        rw [String.data_append]
        exact List.prefix_append _ _
      exact (h1.isInfix.trans (strJoin_infix_of_mem _ _ _ hm)).trans hsuffix
    · intro hL
      have hm := mem_domainParts_logs (compute_domain e).exceptions
        (compute_domain e).logs (compute_domain e).roots hL
      exact (strJoin_infix_of_mem _ _ _ hm).trans hsuffix
    · intro hR
      have hm := mem_domainParts_roots (compute_domain e).exceptions
        (compute_domain e).logs (compute_domain e).roots hR
      exact (strJoin_infix_of_mem _ _ _ hm).trans hsuffix

/-- Witness for C8 at the concrete expression `1/x`: its description
contains the excluded-values clause, and equals the bare all-reals text
for `x + 1`. -/
theorem compute_domain_description_witness :
    ("excepto x = ").data <:+: ((compute_domain (Expr.div (Expr.num 1) X)).desc).data ∧
    (compute_domain (Expr.add X (Expr.num 1))).desc = "Dominio: todos los reales" :=
  ⟨(compute_domain_description (Expr.div (Expr.num 1) X)).2.1 (by decide),
   ((compute_domain_description (Expr.add X (Expr.num 1))).1).mpr (by decide)⟩

end AF
